import Mathlib

/-!
Shallow embedding of `src/vs/editor/common/view/minimapCharRenderer.ts`
(classes `MinimapTokensColorTracker` and `MinimapCharRenderer`).

Modelling conventions:
* JS `number` arithmetic is idealized as exact rational arithmetic; every
  rational that the code produces has an explicit numerator/denominator, so
  each real-valued computation is embedded as an integer pair and the
  store into a `Uint8ClampedArray` (clamp to `[0,255]`, round half to even,
  `NaN ↦ 0`) is the function `clampByteDiv`.
* A `Uint8ClampedArray` / `ImageData.data` buffer is a function `ℕ → ℕ`
  together with its byte length `4 * width * height`; an indexed store with
  an out-of-range (or negative) index is silently ignored, exactly as in
  JS typed arrays, and an out-of-range read yields `none` (JS `undefined`,
  which propagates as `NaN` through arithmetic and clamps to `0`).
* The imperative double loop of `renderChar` / `blockRenderChar` is embedded
  as the list of (index, value) stores it performs, in program order
  (`charWrites` / `blockWrites`), applied by `applyWrites`.
* The tracker's event emitter is embedded by recording, for one run of
  `_updateColorMap`, the list of tracker states observed by subscribers at
  each `fire`, plus a `crashed` flag for a thrown `TypeError`.
-/

namespace Minimap

/-- `ToUint8Clamp` rounding of the exact rational `num / den` (for `den > 0`):
round to the nearest integer, ties to the even integer.  `q` is the floor and
`r` the remainder of the Euclidean division, so `num / den = q + r / den`. -/
def roundHalfEvenDiv (num den : ℤ) : ℤ :=
  if den < 2 * (num % den) then num / den + 1
  else if 2 * (num % den) < den then num / den
  else if (num / den) % 2 = 0 then num / den else num / den + 1

/-- Store of the exact rational `num / den` (`den > 0`) into a
`Uint8ClampedArray` cell: clamp to `[0, 255]`, then round half to even
(ECMAScript `ToUint8Clamp`). -/
def clampByteDiv (num den : ℤ) : ℕ :=
  if num ≤ 0 then 0
  else if 255 * den ≤ num then 255
  else (roundHalfEvenDiv num den).toNat

/-- `RGBA8` value type from `vs/editor/common/core/rgba`: four 8-bit
unsigned channels. -/
structure RGBA8 where
  r : ℕ
  g : ℕ
  b : ℕ
  a : ℕ
deriving DecidableEq

/-- Modelled from the spec: the sentinel `RGBA8.Empty`, a defined, fully
transparent color (the class lives in `vs/editor/common/core/rgba`, which is
not under `src/`; the spec calls it the "possibly transparent sentinel"). -/
def RGBA8.Empty : RGBA8 := ⟨0, 0, 0, 0⟩

/-- Modelled from the spec: the reserved default-background color identifier
from the `ColorId` enum of `vs/editor/common/modes` (not under `src/`).  The
reserved identifiers are `None = 0`, `DefaultForeground = 1`,
`DefaultBackground = 2`; in particular a single-entry palette is shorter
than this identifier, as the claims' "short palette" scenario presupposes. -/
def ColorId.DefaultBackground : ℕ := 2

/-- An entry of the upstream color map (`TokenizationRegistry.getColorMap()`):
a source color with floating-point channels.  `relativeLuminance` is the
value of the external luminance utility on this color (the spec treats the
relative-luminance formula as an external contract, so it is carried as an
oracle field). -/
structure SourceColor where
  r : ℕ
  g : ℕ
  b : ℕ
  a : ℚ
  relativeLuminance : ℚ

/-- The conversion performed in `_updateColorMap`, line 45:
`new RGBA8(source.r, source.g, source.b, Math.round(source.a * 255))`.
`Math.round x = ⌊x + 1/2⌋`. -/
def SourceColor.toRGBA8 (s : SourceColor) : RGBA8 :=
  ⟨s.r, s.g, s.b, (Rat.floor (s.a * 255 + 1/2)).toNat⟩

/-- The mutable state of `MinimapTokensColorTracker`: the palette `_colors`
and the `_backgroundIsLight` flag. -/
structure TrackerState where
  colors : List RGBA8
  backgroundIsLight : Bool
deriving DecidableEq

/-- `MinimapTokensColorTracker.getColor` (lines 52-58).  A read past the end
of the JS array `_colors` yields `undefined`, modelled as `none`. -/
def TrackerState.getColor (st : TrackerState) (colorId : ℤ) : Option RGBA8 :=
  let cid : ℤ :=
    if colorId < 1 ∨ (st.colors.length : ℤ) ≤ colorId then
      (ColorId.DefaultBackground : ℤ)
    else colorId
  st.colors.get? cid.toNat

/-- Result of one run of `_updateColorMap`: the tracker state it leaves
behind, the list of states observed at each `_onDidChange.fire`, and whether
the run threw (`crashed`). -/
structure UpdateResult where
  state : TrackerState
  fired : List TrackerState
  crashed : Bool
deriving DecidableEq

/-- `MinimapTokensColorTracker._updateColorMap` (lines 34-50), as a function
of the value returned by `TokenizationRegistry.getColorMap()` (`none` models
a null/absent map) and of the previous tracker state.  When the map is
present, `this._colors` becomes `[RGBA8.Empty]` extended with the converted
entries `1 .. length-1`; then line 47 reads
`colorMap[ColorId.DefaultBackground]`, which throws a `TypeError` if the map
has at most `ColorId.DefaultBackground` entries (the palette mutation has
already happened, `_backgroundIsLight` keeps its old value, nothing fires). -/
def MinimapTokensColorTracker._updateColorMap
    (colorMap : Option (List SourceColor)) (prev : TrackerState) : UpdateResult :=
  match colorMap with
  | none => ⟨⟨[RGBA8.Empty], true⟩, [], false⟩
  | some cm =>
    let colors := RGBA8.Empty :: (cm.drop 1).map SourceColor.toRGBA8
    match cm.get? ColorId.DefaultBackground with
    | none => ⟨⟨colors, prev.backgroundIsLight⟩, [], true⟩
    | some defBg =>
      let st : TrackerState := ⟨colors, decide ((1:ℚ)/2 ≤ defBg.relativeLuminance)⟩
      ⟨st, [st], false⟩

namespace Constants

/-- `Constants.START_CH_CODE = 32` (space). -/
def START_CH_CODE : ℤ := 32

/-- `Constants.END_CH_CODE = 126` (tilde). -/
def END_CH_CODE : ℤ := 126

/-- `Constants.CHAR_COUNT = END_CH_CODE - START_CH_CODE + 1 = 95`. -/
def CHAR_COUNT : ℤ := END_CH_CODE - START_CH_CODE + 1

/-- `Constants.x1_CHAR_WIDTH = 1`. -/
def x1_CHAR_WIDTH : ℕ := 1

/-- `Constants.x1_CHAR_HEIGHT = 2`. -/
def x1_CHAR_HEIGHT : ℕ := 2

/-- `Constants.RGBA_CHANNELS_CNT = 4`. -/
def RGBA_CHANNELS_CNT : ℕ := 4

end Constants

/-- `MinimapCharRenderer`'s fields: the two softened atlases and the scale. -/
structure MinimapCharRenderer where
  charDataNormal : List ℕ
  charDataLight : List ℕ
  scale : ℕ

/-- `MinimapCharRenderer.soften` (lines 95-101): `result[i] = input[i] * ratio`
stored into a `Uint8ClampedArray`; the ratio is the exact rational
`num / den`. -/
def MinimapCharRenderer.soften (input : List ℕ) (num den : ℕ) : List ℕ :=
  input.map fun v : ℕ => clampByteDiv ((v : ℤ) * (num : ℤ)) (den : ℤ)

/-- The `MinimapCharRenderer` constructor (lines 90-93):
`charDataNormal = soften(charData, 12/15)`, `charDataLight = soften(charData, 50/60)`. -/
def MinimapCharRenderer.make (charData : List ℕ) (scale : ℕ) : MinimapCharRenderer :=
  { charDataNormal := MinimapCharRenderer.soften charData 12 15
    charDataLight := MinimapCharRenderer.soften charData 50 60
    scale := scale }

/-- `MinimapCharRenderer._getChIndex` (lines 103-109).  JS `%` is the
truncating remainder `Int.tmod` (it keeps the sign of the dividend). -/
def MinimapCharRenderer._getChIndex (chCode : ℤ) : ℤ :=
  let c1 := chCode - Constants.START_CH_CODE
  let c2 := if c1 < 0 then c1 + Constants.CHAR_COUNT else c1
  Int.tmod c2 Constants.CHAR_COUNT

/-- `charWidth = Constants.x1_CHAR_WIDTH * this.scale` (line 120/166). -/
def MinimapCharRenderer.charWidth (r : MinimapCharRenderer) : ℕ :=
  Constants.x1_CHAR_WIDTH * r.scale

/-- `charHeight = Constants.x1_CHAR_HEIGHT * this.scale` (line 121/167). -/
def MinimapCharRenderer.charHeight (r : MinimapCharRenderer) : ℕ :=
  Constants.x1_CHAR_HEIGHT * r.scale

/-- `useLighterFont ? this.charDataLight : this.charDataNormal` (line 127). -/
def MinimapCharRenderer.atlas (r : MinimapCharRenderer) (useLighterFont : Bool) : List ℕ :=
  if useLighterFont then r.charDataLight else r.charDataNormal

/-- An `ImageData` render target: pixel width, height, and the byte buffer
`data` (interesting on indices `< 4 * width * height`). -/
@[ext]
structure ImageData where
  width : ℕ
  height : ℕ
  data : ℕ → ℕ

/-- `target.data.length = 4 * width * height` for an `ImageData`. -/
def ImageData.byteLength (t : ImageData) : ℕ :=
  Constants.RGBA_CHANNELS_CNT * (t.width * t.height)

/-- One indexed store `dest[i] = v` into the target's `Uint8ClampedArray`:
out-of-range (including negative) indices are silently ignored. -/
def writeByte (t : ImageData) (i : ℤ) (v : ℕ) : ImageData :=
  if 0 ≤ i ∧ i < (t.byteLength : ℤ) then
    { t with data := fun j => if j = i.toNat then v else t.data j }
  else t

/-- Perform a list of stores in program order. -/
def applyWrites (t : ImageData) : List (ℤ × ℕ) → ImageData
  | [] => t
  | iv :: ws => applyWrites (writeByte t iv.1 iv.2) ws

/-- Read `charData[i]` from a JS typed array: `none` (JS `undefined`) when
`i` is out of range. -/
def atlasRead (cd : List ℕ) (i : ℤ) : Option ℕ :=
  if 0 ≤ i ∧ i < (cd.length : ℤ) then cd.get? i.toNat else none

/-- `background + (color - background) * (a / 255)` stored into the clamped
byte array (lines 147-150): the value has denominator `255`. -/
def blendChannel (bg fg a : ℕ) : ℕ :=
  clampByteDiv (255 * (bg : ℤ) + ((fg : ℤ) - (bg : ℤ)) * (a : ℤ)) 255

/-- The byte actually stored for an atlas sample: an out-of-range atlas read
(`undefined`) makes the whole expression `NaN`, which `ToUint8Clamp` maps
to `0`. -/
def blendVal (bg fg : ℕ) : Option ℕ → ℕ
  | some a => blendChannel bg fg a
  | none => 0

/-- `backgroundR + deltaR * 0.5` of `blockRenderChar` (lines 185-187): the
value has denominator `2`. -/
def blockBlend (bg fg : ℕ) : ℕ :=
  clampByteDiv (2 * (bg : ℤ) + ((fg : ℤ) - (bg : ℤ))) 2

/-- Channel selector: `chan 0 = r`, `chan 1 = g`, `chan 2 = b`. -/
def chan (c : ℕ) (p : RGBA8) : ℕ :=
  if c = 0 then p.r else if c = 1 then p.g else p.b

/-- The stores of one iteration of the inner `x` loop of `renderChar`
(lines 146-152): three channel bytes, the alpha byte is skipped, then the
column advances by 4 and the source offset by 1. -/
def rowWrites (cd : List ℕ) (color backgroundColor : RGBA8)
    (sourceOffset column : ℤ) : ℕ → List (ℤ × ℕ)
  | 0 => []
  | n + 1 =>
    (column, blendVal backgroundColor.r color.r (atlasRead cd sourceOffset)) ::
    (column + 1, blendVal backgroundColor.g color.g (atlasRead cd sourceOffset)) ::
    (column + 2, blendVal backgroundColor.b color.b (atlasRead cd sourceOffset)) ::
    rowWrites cd color backgroundColor (sourceOffset + 1) (column + 4) n

/-- The stores of the outer `y` loop of `renderChar` (lines 144-155): one row
of `charWidth` pixels, then `row += destWidth` while the source offset has
advanced by `charWidth`. -/
def charWrites (cd : List ℕ) (color backgroundColor : RGBA8) (destWidth : ℤ)
    (charWidth : ℕ) (sourceOffset row : ℤ) : ℕ → List (ℤ × ℕ)
  | 0 => []
  | n + 1 =>
    rowWrites cd color backgroundColor sourceOffset row charWidth ++
    charWrites cd color backgroundColor destWidth charWidth
      (sourceOffset + charWidth) (row + destWidth) n

/-- `MinimapCharRenderer.renderChar` (lines 111-156). -/
def MinimapCharRenderer.renderChar (r : MinimapCharRenderer) (target : ImageData)
    (dx dy chCode : ℤ) (color backgroundColor : RGBA8) (useLighterFont : Bool) :
    ImageData :=
  if dx + (r.charWidth : ℤ) > (target.width : ℤ) ∨
     dy + (r.charHeight : ℤ) > (target.height : ℤ) then
    target
  else
    let charData := r.atlas useLighterFont
    let charIndex := MinimapCharRenderer._getChIndex chCode
    let destWidth : ℤ := (target.width : ℤ) * (Constants.RGBA_CHANNELS_CNT : ℤ)
    let sourceOffset := charIndex * (r.charWidth : ℤ) * (r.charHeight : ℤ)
    let row := dy * destWidth + dx * (Constants.RGBA_CHANNELS_CNT : ℤ)
    applyWrites target
      (charWrites charData color backgroundColor destWidth r.charWidth
        sourceOffset row r.charHeight)

/-- The stores of one iteration of the inner `x` loop of `blockRenderChar`
(lines 194-199). -/
def blockRowWrites (vr vg vb : ℕ) (column : ℤ) : ℕ → List (ℤ × ℕ)
  | 0 => []
  | n + 1 =>
    (column, vr) :: (column + 1, vg) :: (column + 2, vb) ::
    blockRowWrites vr vg vb (column + 4) n

/-- The stores of the outer `y` loop of `blockRenderChar` (lines 192-202). -/
def blockWrites (vr vg vb : ℕ) (destWidth : ℤ) (charWidth : ℕ) (row : ℤ) :
    ℕ → List (ℤ × ℕ)
  | 0 => []
  | n + 1 =>
    blockRowWrites vr vg vb row charWidth ++
    blockWrites vr vg vb destWidth charWidth (row + destWidth) n

/-- `MinimapCharRenderer.blockRenderChar` (lines 158-203).  `useLighterFont`
is accepted but unused, as in the source. -/
def MinimapCharRenderer.blockRenderChar (r : MinimapCharRenderer) (target : ImageData)
    (dx dy : ℤ) (color backgroundColor : RGBA8) (useLighterFont : Bool) : ImageData :=
  if dx + (r.charWidth : ℤ) > (target.width : ℤ) ∨
     dy + (r.charHeight : ℤ) > (target.height : ℤ) then
    target
  else
    let destWidth : ℤ := (target.width : ℤ) * (Constants.RGBA_CHANNELS_CNT : ℤ)
    let colorR := blockBlend backgroundColor.r color.r
    let colorG := blockBlend backgroundColor.g color.g
    let colorB := blockBlend backgroundColor.b color.b
    let row := dy * destWidth + dx * (Constants.RGBA_CHANNELS_CNT : ℤ)
    applyWrites target
      (blockWrites colorR colorG colorB destWidth r.charWidth row r.charHeight)

/-- Concrete fixture: a two-sample raw atlas (both samples fully lit). -/
def sampleAtlas : List ℕ := List.replicate 2 255

/-- Concrete fixture: a renderer at scale 1 built from `sampleAtlas`
(cell 1×2, so the atlas covers exactly one glyph). -/
def sampleRenderer : MinimapCharRenderer := MinimapCharRenderer.make sampleAtlas 1

/-- Concrete fixture: a raw atlas covering all 95 glyph cells at scale 1
(cell 1×2, 190 samples). -/
def bigAtlas : List ℕ := List.replicate 190 255

/-- Concrete fixture: a renderer at scale 1 built from `bigAtlas`. -/
def bigRenderer : MinimapCharRenderer := MinimapCharRenderer.make bigAtlas 1

/-- Concrete fixture: a 4×2 render target with an all-zero buffer. -/
def sampleTarget : ImageData := ⟨4, 2, fun _ => 0⟩

/-- Concrete fixture: a tracker state with a three-entry palette. -/
def samplePalette : TrackerState :=
  ⟨[RGBA8.Empty, ⟨17, 17, 17, 255⟩, ⟨34, 34, 34, 255⟩], false⟩

/-- Concrete fixture: a three-entry source color map whose default-background
entry (index 2) has relative luminance 3/4. -/
def sampleColorMap : List SourceColor :=
  [⟨0, 0, 0, 1, 0⟩, ⟨10, 10, 10, 1, (1 : ℚ)/4⟩, ⟨250, 250, 250, 1, (3 : ℚ)/4⟩]

/-- The byte a list of stores leaves at buffer index `j` of a buffer of
`len` bytes whose previous content at `j` is `d`: the last in-range store to
`j` wins. -/
def lastVal (len j : ℕ) : List (ℤ × ℕ) → ℕ → ℕ
  | [], d => d
  | iv :: ws, d =>
    lastVal len j ws (if iv.1 = (j : ℤ) ∧ (j : ℤ) < (len : ℤ) then iv.2 else d)

/-! ### Numeric helper lemmas -/

theorem tmod_ofNat (m n : ℕ) : Int.tmod (m : ℤ) (n : ℤ) = ((m % n : ℕ) : ℤ) := rfl

theorem tmod_eq_emod_of_nonneg (a b : ℤ) (ha : 0 ≤ a) (hb : 0 ≤ b) :
    Int.tmod a b = a % b := by
  obtain ⟨m, rfl⟩ := Int.eq_ofNat_of_zero_le ha
  obtain ⟨n, rfl⟩ := Int.eq_ofNat_of_zero_le hb
  rw [tmod_ofNat, Int.ofNat_emod]

theorem getChIndex_spec (c : ℤ) (h : -63 ≤ c) :
    MinimapCharRenderer._getChIndex c = (c - 32) % 95 ∧
      0 ≤ MinimapCharRenderer._getChIndex c ∧
      MinimapCharRenderer._getChIndex c < 95 := by
  unfold MinimapCharRenderer._getChIndex
  simp only [Constants.START_CH_CODE, Constants.CHAR_COUNT, Constants.END_CH_CODE]
  split_ifs with hneg <;> (rw [tmod_eq_emod_of_nonneg _ _ (by omega) (by omega)]; omega)

theorem getChIndex_range (c : ℤ) (h : 0 ≤ c) :
    0 ≤ MinimapCharRenderer._getChIndex c ∧ MinimapCharRenderer._getChIndex c < 95 :=
  (getChIndex_spec c (by omega)).2

theorem clampByteDiv_mul_self (v : ℕ) (hv : v ≤ 255) :
    clampByteDiv (255 * (v : ℤ)) 255 = v := by
  unfold clampByteDiv roundHalfEvenDiv
  split_ifs <;> omega

theorem blendChannel_zero (bg fg : ℕ) (h : bg ≤ 255) : blendChannel bg fg 0 = bg := by
  have he : 255 * (bg : ℤ) + ((fg : ℤ) - (bg : ℤ)) * ((0 : ℕ) : ℤ) = 255 * (bg : ℤ) := by
    push_cast; ring
  rw [blendChannel, he, clampByteDiv_mul_self bg h]

theorem blendChannel_full (bg fg : ℕ) (h : fg ≤ 255) : blendChannel bg fg 255 = fg := by
  have he : 255 * (bg : ℤ) + ((fg : ℤ) - (bg : ℤ)) * ((255 : ℕ) : ℤ) = 255 * (fg : ℤ) := by
    push_cast; ring
  rw [blendChannel, he, clampByteDiv_mul_self fg h]

theorem clampByteDiv_soften_normal_le (v : ℕ) : clampByteDiv ((v : ℤ) * 12) 15 ≤ v := by
  unfold clampByteDiv roundHalfEvenDiv
  split_ifs <;> omega

theorem clampByteDiv_soften_light_le (v : ℕ) : clampByteDiv ((v : ℤ) * 50) 60 ≤ v := by
  unfold clampByteDiv roundHalfEvenDiv
  split_ifs <;> omega

/-! ### Buffer-write infrastructure lemmas -/

theorem writeByte_width (t : ImageData) (i : ℤ) (v : ℕ) :
    (writeByte t i v).width = t.width := by
  unfold writeByte; split <;> rfl

theorem writeByte_height (t : ImageData) (i : ℤ) (v : ℕ) :
    (writeByte t i v).height = t.height := by
  unfold writeByte; split <;> rfl

theorem writeByte_byteLength (t : ImageData) (i : ℤ) (v : ℕ) :
    (writeByte t i v).byteLength = t.byteLength := by
  unfold ImageData.byteLength
  rw [writeByte_width, writeByte_height]

theorem applyWrites_width (ws : List (ℤ × ℕ)) : ∀ t : ImageData,
    (applyWrites t ws).width = t.width := by
  induction ws with
  | nil => intro t; rfl
  | cons iv ws ih => intro t; rw [applyWrites, ih, writeByte_width]

theorem applyWrites_height (ws : List (ℤ × ℕ)) : ∀ t : ImageData,
    (applyWrites t ws).height = t.height := by
  induction ws with
  | nil => intro t; rfl
  | cons iv ws ih => intro t; rw [applyWrites, ih, writeByte_height]

theorem applyWrites_byteLength (ws : List (ℤ × ℕ)) (t : ImageData) :
    (applyWrites t ws).byteLength = t.byteLength := by
  unfold ImageData.byteLength
  rw [applyWrites_width, applyWrites_height]

theorem writeByte_data (t : ImageData) (i : ℤ) (v : ℕ) (j : ℕ) :
    (writeByte t i v).data j =
      if i = (j : ℤ) ∧ (j : ℤ) < (t.byteLength : ℤ) then v else t.data j := by
  unfold writeByte
  by_cases h1 : 0 ≤ i ∧ i < (t.byteLength : ℤ)
  · rw [if_pos h1]
    by_cases h2 : j = i.toNat
    · rw [if_pos (by omega : i = (j : ℤ) ∧ (j : ℤ) < (t.byteLength : ℤ))]
      simp [h2]
    · rw [if_neg (by omega : ¬(i = (j : ℤ) ∧ (j : ℤ) < (t.byteLength : ℤ)))]
      simp [h2]
  · rw [if_neg h1, if_neg (by omega : ¬(i = (j : ℤ) ∧ (j : ℤ) < (t.byteLength : ℤ)))]

theorem applyWrites_data (ws : List (ℤ × ℕ)) : ∀ (t : ImageData) (j : ℕ),
    (applyWrites t ws).data j = lastVal t.byteLength j ws (t.data j) := by
  induction ws with
  | nil => intro t j; rfl
  | cons iv ws ih =>
    intro t j
    rw [applyWrites, ih, writeByte_byteLength, writeByte_data, lastVal]

theorem lastVal_oob (len j : ℕ) (hj : len ≤ j) :
    ∀ (ws : List (ℤ × ℕ)) (d : ℕ), lastVal len j ws d = d := by
  intro ws
  induction ws with
  | nil => intro d; rfl
  | cons iv ws ih =>
    intro d
    rw [lastVal, if_neg (by omega : ¬(iv.1 = (j : ℤ) ∧ (j : ℤ) < (len : ℤ))), ih]

theorem lastVal_miss (len j : ℕ) (ws : List (ℤ × ℕ))
    (h : ∀ iv ∈ ws, iv.1 ≠ (j : ℤ)) : ∀ d : ℕ, lastVal len j ws d = d := by
  induction ws with
  | nil => intro d; rfl
  | cons iv ws ih =>
    intro d
    rw [lastVal, if_neg (by
      intro hc
      exact h iv (List.mem_cons_self iv ws) hc.1)]
    exact ih (fun iv h' => h iv (List.mem_cons_of_mem _ h')) d

theorem lastVal_const (len j : ℕ) (v : ℕ) (ws : List (ℤ × ℕ))
    (h : ∀ iv ∈ ws, iv.1 = (j : ℤ) → iv.2 = v) : lastVal len j ws v = v := by
  induction ws with
  | nil => rfl
  | cons iv ws ih =>
    rw [lastVal]
    have htail : ∀ iv ∈ ws, iv.1 = (j : ℤ) → iv.2 = v :=
      fun iv h' => h iv (List.mem_cons_of_mem _ h')
    by_cases hc : iv.1 = (j : ℤ) ∧ (j : ℤ) < (len : ℤ)
    · rw [if_pos hc, h iv (List.mem_cons_self iv ws) hc.1]
      exact ih htail
    · rw [if_neg hc]
      exact ih htail

theorem lastVal_hit (len j : ℕ) (v₀ : ℕ) (ws : List (ℤ × ℕ))
    (hlen : (j : ℤ) < (len : ℤ))
    (hmem : ((j : ℤ), v₀) ∈ ws)
    (hagree : ∀ iv ∈ ws, iv.1 = (j : ℤ) → iv.2 = v₀) :
    ∀ d : ℕ, lastVal len j ws d = v₀ := by
  induction ws with
  | nil => cases hmem
  | cons iv ws ih =>
    intro d
    rw [lastVal]
    have htail : ∀ iv ∈ ws, iv.1 = (j : ℤ) → iv.2 = v₀ :=
      fun iv h' => hagree iv (List.mem_cons_of_mem _ h')
    rcases List.mem_cons.1 hmem with hhead | htl
    · rw [← hhead] at *
      rw [if_pos ⟨rfl, hlen⟩]
      exact lastVal_const len j v₀ ws htail
    · by_cases hc : iv.1 = (j : ℤ) ∧ (j : ℤ) < (len : ℤ)
      · rw [if_pos hc, hagree iv (List.mem_cons_self iv ws) hc.1]
        exact lastVal_const len j v₀ ws htail
      · rw [if_neg hc]
        exact ih htl htail d

theorem lastVal_cases (len j : ℕ) (ws : List (ℤ × ℕ)) :
    (∀ d d' : ℕ, lastVal len j ws d = lastVal len j ws d') ∨
      (∀ d : ℕ, lastVal len j ws d = d) := by
  induction ws with
  | nil => exact Or.inr (fun d => rfl)
  | cons iv ws ih =>
    rcases ih with hconst | hid
    · exact Or.inl (fun d d' => by rw [lastVal, lastVal]; exact hconst _ _)
    · by_cases hc : iv.1 = (j : ℤ) ∧ (j : ℤ) < (len : ℤ)
      · refine Or.inl (fun d d' => ?_)
        rw [lastVal, lastVal, if_pos hc, if_pos hc]
      · refine Or.inr (fun d => ?_)
        rw [lastVal, if_neg hc, hid]

theorem lastVal_idem (len j : ℕ) (ws : List (ℤ × ℕ)) (d : ℕ) :
    lastVal len j ws (lastVal len j ws d) = lastVal len j ws d := by
  rcases lastVal_cases len j ws with hconst | hid
  · exact hconst _ _
  · rw [hid, hid]

theorem pair_congr (a₁ a₂ : ℤ) (bgc fgc : ℕ) (cd : List ℕ) (e₁ e₂ : ℤ)
    (ha : a₁ = a₂) (he : e₁ = e₂) :
    ((a₁, blendVal bgc fgc (atlasRead cd e₁)) : ℤ × ℕ) =
      (a₂, blendVal bgc fgc (atlasRead cd e₂)) := by
  rw [ha, he]

theorem pairN_congr (a₁ a₂ : ℤ) (v : ℕ) (ha : a₁ = a₂) :
    ((a₁, v) : ℤ × ℕ) = (a₂, v) := by
  rw [ha]

theorem mem_rowWrites (cd : List ℕ) (color backgroundColor : RGBA8) :
    ∀ (n : ℕ) (s col : ℤ) (iv : ℤ × ℕ),
      iv ∈ rowWrites cd color backgroundColor s col n ↔
        ∃ k, k < n ∧ ∃ c : ℕ, c < 3 ∧
          iv = (col + 4 * (k : ℤ) + (c : ℤ),
            blendVal (chan c backgroundColor) (chan c color)
              (atlasRead cd (s + (k : ℤ)))) := by
  intro n
  induction n with
  | zero => intro s col iv; simp [rowWrites]
  | succ n ih =>
    intro s col iv
    rw [rowWrites]
    simp only [List.mem_cons, ih (s + 1) (col + 4)]
    constructor
    · rintro (rfl | rfl | rfl | ⟨k, hk, c, hc, rfl⟩)
      · exact ⟨0, by omega, 0, by omega, by simp [chan]⟩
      · exact ⟨0, by omega, 1, by omega, by simp [chan]⟩
      · exact ⟨0, by omega, 2, by omega, by simp [chan]⟩
      · exact ⟨k + 1, by omega, c, hc,
          pair_congr _ _ _ _ _ _ _ (by push_cast; ring) (by push_cast; ring)⟩
    · rintro ⟨k, hk, c, hc, rfl⟩
      rcases k with _ | k
      · interval_cases c
        · exact Or.inl (by simp [chan])
        · exact Or.inr (Or.inl (by simp [chan]))
        · exact Or.inr (Or.inr (Or.inl (by simp [chan])))
      · refine Or.inr (Or.inr (Or.inr ⟨k, by omega, c, hc,
          pair_congr _ _ _ _ _ _ _ (by push_cast; ring) (by push_cast; ring)⟩))

theorem mem_charWrites (cd : List ℕ) (color backgroundColor : RGBA8) (dW : ℤ) (cw : ℕ) :
    ∀ (n : ℕ) (s row : ℤ) (iv : ℤ × ℕ),
      iv ∈ charWrites cd color backgroundColor dW cw s row n ↔
        ∃ m, m < n ∧ ∃ k, k < cw ∧ ∃ c : ℕ, c < 3 ∧
          iv = (row + (m : ℤ) * dW + (4 * (k : ℤ) + (c : ℤ)),
            blendVal (chan c backgroundColor) (chan c color)
              (atlasRead cd (s + (m : ℤ) * (cw : ℤ) + (k : ℤ)))) := by
  intro n
  induction n with
  | zero => intro s row iv; simp [charWrites]
  | succ n ih =>
    intro s row iv
    rw [charWrites]
    simp only [List.mem_append, mem_rowWrites, ih (s + cw) (row + dW)]
    constructor
    · rintro (⟨k, hk, c, hc, rfl⟩ | ⟨m, hm, k, hk, c, hc, rfl⟩)
      · exact ⟨0, by omega, k, hk, c, hc,
          pair_congr _ _ _ _ _ _ _ (by push_cast; ring) (by push_cast; ring)⟩
      · exact ⟨m + 1, by omega, k, hk, c, hc,
          pair_congr _ _ _ _ _ _ _ (by push_cast; ring) (by push_cast; ring)⟩
    · rintro ⟨m, hm, k, hk, c, hc, rfl⟩
      rcases m with _ | m
      · exact Or.inl ⟨k, hk, c, hc,
          pair_congr _ _ _ _ _ _ _ (by push_cast; ring) (by push_cast; ring)⟩
      · exact Or.inr ⟨m, by omega, k, hk, c, hc,
          pair_congr _ _ _ _ _ _ _ (by push_cast; ring) (by push_cast; ring)⟩

theorem mem_blockRowWrites (vr vg vb : ℕ) :
    ∀ (n : ℕ) (col : ℤ) (iv : ℤ × ℕ),
      iv ∈ blockRowWrites vr vg vb col n ↔
        ∃ k, k < n ∧ ∃ c : ℕ, c < 3 ∧
          iv = (col + 4 * (k : ℤ) + (c : ℤ), chan c ⟨vr, vg, vb, 0⟩) := by
  intro n
  induction n with
  | zero => intro col iv; simp [blockRowWrites]
  | succ n ih =>
    intro col iv
    rw [blockRowWrites]
    simp only [List.mem_cons, ih (col + 4)]
    constructor
    · rintro (rfl | rfl | rfl | ⟨k, hk, c, hc, rfl⟩)
      · exact ⟨0, by omega, 0, by omega, by simp [chan]⟩
      · exact ⟨0, by omega, 1, by omega, by simp [chan]⟩
      · exact ⟨0, by omega, 2, by omega, by simp [chan]⟩
      · exact ⟨k + 1, by omega, c, hc, pairN_congr _ _ _ (by push_cast; ring)⟩
    · rintro ⟨k, hk, c, hc, rfl⟩
      rcases k with _ | k
      · interval_cases c
        · exact Or.inl (by simp [chan])
        · exact Or.inr (Or.inl (by simp [chan]))
        · exact Or.inr (Or.inr (Or.inl (by simp [chan])))
      · exact Or.inr (Or.inr (Or.inr ⟨k, by omega, c, hc,
          pairN_congr _ _ _ (by push_cast; ring)⟩))

theorem mem_blockWrites (vr vg vb : ℕ) (dW : ℤ) (cw : ℕ) :
    ∀ (n : ℕ) (row : ℤ) (iv : ℤ × ℕ),
      iv ∈ blockWrites vr vg vb dW cw row n ↔
        ∃ m, m < n ∧ ∃ k, k < cw ∧ ∃ c : ℕ, c < 3 ∧
          iv = (row + (m : ℤ) * dW + (4 * (k : ℤ) + (c : ℤ)), chan c ⟨vr, vg, vb, 0⟩) := by
  intro n
  induction n with
  | zero => intro row iv; simp [blockWrites]
  | succ n ih =>
    intro row iv
    rw [blockWrites]
    simp only [List.mem_append, mem_blockRowWrites, ih (row + dW)]
    constructor
    · rintro (⟨k, hk, c, hc, rfl⟩ | ⟨m, hm, k, hk, c, hc, rfl⟩)
      · exact ⟨0, by omega, k, hk, c, hc, pairN_congr _ _ _ (by push_cast; ring)⟩
      · exact ⟨m + 1, by omega, k, hk, c, hc, pairN_congr _ _ _ (by push_cast; ring)⟩
    · rintro ⟨m, hm, k, hk, c, hc, rfl⟩
      rcases m with _ | m
      · exact Or.inl ⟨k, hk, c, hc, pairN_congr _ _ _ (by push_cast; ring)⟩
      · exact Or.inr ⟨m, by omega, k, hk, c, hc, pairN_congr _ _ _ (by push_cast; ring)⟩

theorem euclid_unique (w : ℕ) (a b r s : ℤ) (hr0 : 0 ≤ r) (hrw : r < (w : ℤ))
    (hs0 : 0 ≤ s) (hsw : s < (w : ℤ)) (h : a * w + r = b * w + s) :
    a = b ∧ r = s := by
  have hw : (0 : ℤ) < w := lt_of_le_of_lt hr0 hrw
  have hk : (b - a) * (w : ℤ) = r - s := by linear_combination -h
  have hdvd : (w : ℤ) ∣ r - s := ⟨b - a, by linarith [hk]⟩
  have habs : |r - s| < (w : ℤ) := abs_lt.2 ⟨by omega, by omega⟩
  have hzero : r - s = 0 := Int.eq_zero_of_abs_lt_dvd hdvd habs
  have hab : b - a = 0 := by
    rcases mul_eq_zero.1 (hk.trans hzero) with h' | h'
    · exact h'
    · exact absurd h' (by omega)
  exact ⟨by omega, by omega⟩

theorem renderChar_width (r : MinimapCharRenderer) (t : ImageData) (dx dy chCode : ℤ)
    (color backgroundColor : RGBA8) (l : Bool) :
    (r.renderChar t dx dy chCode color backgroundColor l).width = t.width := by
  unfold MinimapCharRenderer.renderChar
  split <;> simp [applyWrites_width]

theorem renderChar_height (r : MinimapCharRenderer) (t : ImageData) (dx dy chCode : ℤ)
    (color backgroundColor : RGBA8) (l : Bool) :
    (r.renderChar t dx dy chCode color backgroundColor l).height = t.height := by
  unfold MinimapCharRenderer.renderChar
  split <;> simp [applyWrites_height]

theorem blockRenderChar_width (r : MinimapCharRenderer) (t : ImageData) (dx dy : ℤ)
    (color backgroundColor : RGBA8) (l : Bool) :
    (r.blockRenderChar t dx dy color backgroundColor l).width = t.width := by
  unfold MinimapCharRenderer.blockRenderChar
  split <;> simp [applyWrites_width]

theorem blockRenderChar_height (r : MinimapCharRenderer) (t : ImageData) (dx dy : ℤ)
    (color backgroundColor : RGBA8) (l : Bool) :
    (r.blockRenderChar t dx dy color backgroundColor l).height = t.height := by
  unfold MinimapCharRenderer.blockRenderChar
  split <;> simp [applyWrites_height]

/-- Hit characterization of `renderChar` for non-negative device coordinates:
the byte written at channel `c < 3` of the cell pixel `(x, y)` is the blend of
the next atlas sample. -/
theorem renderChar_data_in (r : MinimapCharRenderer) (t : ImageData)
    (dxn dyn : ℕ) (chCode : ℤ) (color backgroundColor : RGBA8) (l : Bool)
    (hb1 : dxn + r.charWidth ≤ t.width) (hb2 : dyn + r.charHeight ≤ t.height)
    (x y c : ℕ) (hx : x < r.charWidth) (hy : y < r.charHeight) (hc : c < 3) :
    (r.renderChar t (dxn : ℤ) (dyn : ℤ) chCode color backgroundColor l).data
        (((dyn + y) * t.width + (dxn + x)) * 4 + c) =
      blendVal (chan c backgroundColor) (chan c color)
        (atlasRead (r.atlas l)
          (MinimapCharRenderer._getChIndex chCode * (r.charWidth : ℤ) * (r.charHeight : ℤ)
            + ((y : ℤ) * (r.charWidth : ℤ) + (x : ℤ)))) := by
  have hguard : ¬((dxn : ℤ) + (r.charWidth : ℤ) > (t.width : ℤ) ∨
      (dyn : ℤ) + (r.charHeight : ℤ) > (t.height : ℤ)) := by omega
  simp only [MinimapCharRenderer.renderChar, Constants.RGBA_CHANNELS_CNT, if_neg hguard]
  rw [applyWrites_data]
  have hA : (dyn + y) * t.width + (dxn + x) < t.height * t.width := by
    calc (dyn + y) * t.width + (dxn + x) < (dyn + y) * t.width + t.width := by omega
    _ = (dyn + y + 1) * t.width := by ring
    _ ≤ t.height * t.width := Nat.mul_le_mul_right _ (by omega)
  have hlen : ((((dyn + y) * t.width + (dxn + x)) * 4 + c : ℕ) : ℤ) <
      (t.byteLength : ℤ) := by
    have : ((dyn + y) * t.width + (dxn + x)) * 4 + c < t.byteLength := by
      simp only [ImageData.byteLength, Constants.RGBA_CHANNELS_CNT]
      have := Nat.mul_comm t.height t.width
      omega
    exact_mod_cast this
  refine Eq.trans
    (lastVal_hit t.byteLength _ _ _ hlen
      ((mem_charWrites _ _ _ _ _ _ _ _ _).mpr
        ⟨y, hy, x, hx, c, hc,
          pair_congr _ _ _ _ _ _ _ (by push_cast; ring) rfl⟩)
      ?_ _) ?_
  · intro iv hmem heq
    rw [mem_charWrites] at hmem
    obtain ⟨m, hm, k, hk, c', hc', rfl⟩ := hmem
    simp only at heq
    have hAB : (((dyn : ℤ) + m) * t.width + ((dxn : ℤ) + k)) * 4 + (c' : ℤ) =
        (((dyn : ℤ) + y) * t.width + ((dxn : ℤ) + x)) * 4 + (c : ℤ) := by
      push_cast at heq ⊢
      linear_combination heq
    have hR : ((dyn : ℤ) + m) * t.width + ((dxn : ℤ) + k) =
        ((dyn : ℤ) + y) * t.width + ((dxn : ℤ) + x) := by omega
    obtain ⟨hrow, hcol⟩ := euclid_unique t.width _ _ _ _
      (by omega) (by omega) (by omega) (by omega) hR
    have hm' : m = y := by omega
    have hk' : k = x := by omega
    have hc'' : c' = c := by omega
    subst hm'; subst hk'; subst hc''
    rfl
  · exact congrArg (blendVal _ _) (congrArg (atlasRead _) (by ring))

/-- Frame characterization of `renderChar` for a non-negative `dx`: any byte
whose pixel lies outside the scaled cell footprint (or whose channel is the
alpha channel) is unchanged. -/
theorem renderChar_data_out (r : MinimapCharRenderer) (t : ImageData)
    (dxn : ℕ) (dy chCode : ℤ) (color backgroundColor : RGBA8) (l : Bool)
    (ty tx c : ℕ) (htx : tx < t.width) (hc : c < 4)
    (hout : ¬(dy ≤ (ty : ℤ) ∧ (ty : ℤ) < dy + (r.charHeight : ℤ) ∧
        (dxn : ℤ) ≤ (tx : ℤ) ∧ (tx : ℤ) < (dxn : ℤ) + (r.charWidth : ℤ) ∧ c < 3)) :
    (r.renderChar t (dxn : ℤ) dy chCode color backgroundColor l).data
        ((ty * t.width + tx) * 4 + c) =
      t.data ((ty * t.width + tx) * 4 + c) := by
  by_cases hguard : (dxn : ℤ) + (r.charWidth : ℤ) > (t.width : ℤ) ∨
      dy + (r.charHeight : ℤ) > (t.height : ℤ)
  · simp only [MinimapCharRenderer.renderChar, if_pos hguard]
  · have hcw : dxn + r.charWidth ≤ t.width := by omega
    simp only [MinimapCharRenderer.renderChar, Constants.RGBA_CHANNELS_CNT, if_neg hguard]
    rw [applyWrites_data]
    apply lastVal_miss
    intro iv hmem
    rw [mem_charWrites] at hmem
    obtain ⟨m, hm, k, hk, c', hc', rfl⟩ := hmem
    simp only
    intro heq
    have hAB : ((dy + (m : ℤ)) * t.width + ((dxn : ℤ) + k)) * 4 + (c' : ℤ) =
        ((ty : ℤ) * t.width + (tx : ℤ)) * 4 + (c : ℤ) := by
      push_cast at heq ⊢
      linear_combination heq
    by_cases hrow : dy + (m : ℤ) < 0
    · have h1 : (dy + (m : ℤ)) * (t.width : ℤ) ≤ -1 * (t.width : ℤ) :=
        mul_le_mul_of_nonneg_right (by omega) (by positivity)
      have h2 : (0 : ℤ) ≤ (ty : ℤ) * (t.width : ℤ) := by positivity
      omega
    · have hR : (dy + (m : ℤ)) * t.width + ((dxn : ℤ) + k) =
          ((ty : ℤ)) * t.width + (tx : ℤ) := by omega
      obtain ⟨hrow', hcol⟩ := euclid_unique t.width _ _ _ _
        (by omega) (by omega) (by omega) (by omega) hR
      exact hout (by omega)

/-- Hit characterization of `blockRenderChar` for non-negative device
coordinates: the byte written at channel `c < 3` of the cell pixel `(x, y)`
is the midpoint blend of the corresponding channels. -/
theorem blockRenderChar_data_in (r : MinimapCharRenderer) (t : ImageData)
    (dxn dyn : ℕ) (color backgroundColor : RGBA8) (l : Bool)
    (hb1 : dxn + r.charWidth ≤ t.width) (hb2 : dyn + r.charHeight ≤ t.height)
    (x y c : ℕ) (hx : x < r.charWidth) (hy : y < r.charHeight) (hc : c < 3) :
    (r.blockRenderChar t (dxn : ℤ) (dyn : ℤ) color backgroundColor l).data
        (((dyn + y) * t.width + (dxn + x)) * 4 + c) =
      chan c ⟨blockBlend backgroundColor.r color.r, blockBlend backgroundColor.g color.g,
        blockBlend backgroundColor.b color.b, 0⟩ := by
  have hguard : ¬((dxn : ℤ) + (r.charWidth : ℤ) > (t.width : ℤ) ∨
      (dyn : ℤ) + (r.charHeight : ℤ) > (t.height : ℤ)) := by omega
  simp only [MinimapCharRenderer.blockRenderChar, Constants.RGBA_CHANNELS_CNT, if_neg hguard]
  rw [applyWrites_data]
  have hA : (dyn + y) * t.width + (dxn + x) < t.height * t.width := by
    calc (dyn + y) * t.width + (dxn + x) < (dyn + y) * t.width + t.width := by omega
    _ = (dyn + y + 1) * t.width := by ring
    _ ≤ t.height * t.width := Nat.mul_le_mul_right _ (by omega)
  have hlen : ((((dyn + y) * t.width + (dxn + x)) * 4 + c : ℕ) : ℤ) <
      (t.byteLength : ℤ) := by
    have : ((dyn + y) * t.width + (dxn + x)) * 4 + c < t.byteLength := by
      simp only [ImageData.byteLength, Constants.RGBA_CHANNELS_CNT]
      have := Nat.mul_comm t.height t.width
      omega
    exact_mod_cast this
  refine lastVal_hit t.byteLength _ _ _ hlen
    ((mem_blockWrites _ _ _ _ _ _ _ _).mpr
      ⟨y, hy, x, hx, c, hc, pairN_congr _ _ _ (by push_cast; ring)⟩)
    ?_ _
  intro iv hmem heq
  rw [mem_blockWrites] at hmem
  obtain ⟨m, hm, k, hk, c', hc', rfl⟩ := hmem
  simp only at heq
  have hAB : (((dyn : ℤ) + m) * t.width + ((dxn : ℤ) + k)) * 4 + (c' : ℤ) =
      (((dyn : ℤ) + y) * t.width + ((dxn : ℤ) + x)) * 4 + (c : ℤ) := by
    push_cast at heq ⊢
    linear_combination heq
  have hR : ((dyn : ℤ) + m) * t.width + ((dxn : ℤ) + k) =
      ((dyn : ℤ) + y) * t.width + ((dxn : ℤ) + x) := by omega
  obtain ⟨hrow, hcol⟩ := euclid_unique t.width _ _ _ _
    (by omega) (by omega) (by omega) (by omega) hR
  have hc'' : c' = c := by omega
  subst hc''
  rfl

/-- Frame characterization of `blockRenderChar` for a non-negative `dx`. -/
theorem blockRenderChar_data_out (r : MinimapCharRenderer) (t : ImageData)
    (dxn : ℕ) (dy : ℤ) (color backgroundColor : RGBA8) (l : Bool)
    (ty tx c : ℕ) (htx : tx < t.width) (hc : c < 4)
    (hout : ¬(dy ≤ (ty : ℤ) ∧ (ty : ℤ) < dy + (r.charHeight : ℤ) ∧
        (dxn : ℤ) ≤ (tx : ℤ) ∧ (tx : ℤ) < (dxn : ℤ) + (r.charWidth : ℤ) ∧ c < 3)) :
    (r.blockRenderChar t (dxn : ℤ) dy color backgroundColor l).data
        ((ty * t.width + tx) * 4 + c) =
      t.data ((ty * t.width + tx) * 4 + c) := by
  by_cases hguard : (dxn : ℤ) + (r.charWidth : ℤ) > (t.width : ℤ) ∨
      dy + (r.charHeight : ℤ) > (t.height : ℤ)
  · simp only [MinimapCharRenderer.blockRenderChar, if_pos hguard]
  · have hcw : dxn + r.charWidth ≤ t.width := by omega
    simp only [MinimapCharRenderer.blockRenderChar, Constants.RGBA_CHANNELS_CNT, if_neg hguard]
    rw [applyWrites_data]
    apply lastVal_miss
    intro iv hmem
    rw [mem_blockWrites] at hmem
    obtain ⟨m, hm, k, hk, c', hc', rfl⟩ := hmem
    simp only
    intro heq
    have hAB : ((dy + (m : ℤ)) * t.width + ((dxn : ℤ) + k)) * 4 + (c' : ℤ) =
        ((ty : ℤ) * t.width + (tx : ℤ)) * 4 + (c : ℤ) := by
      push_cast at heq ⊢
      linear_combination heq
    by_cases hrow : dy + (m : ℤ) < 0
    · have h1 : (dy + (m : ℤ)) * (t.width : ℤ) ≤ -1 * (t.width : ℤ) :=
        mul_le_mul_of_nonneg_right (by omega) (by positivity)
      have h2 : (0 : ℤ) ≤ (ty : ℤ) * (t.width : ℤ) := by positivity
      omega
    · have hR : (dy + (m : ℤ)) * t.width + ((dxn : ℤ) + k) =
          ((ty : ℤ)) * t.width + (tx : ℤ) := by omega
      obtain ⟨hrow', hcol⟩ := euclid_unique t.width _ _ _ _
        (by omega) (by omega) (by omega) (by omega) hR
      exact hout (by omega)

theorem renderChar_eq_applyWrites (r : MinimapCharRenderer) (t : ImageData)
    (dx dy chCode : ℤ) (color backgroundColor : RGBA8) (l : Bool)
    (h : ¬(dx + (r.charWidth : ℤ) > (t.width : ℤ) ∨
        dy + (r.charHeight : ℤ) > (t.height : ℤ))) :
    r.renderChar t dx dy chCode color backgroundColor l =
      applyWrites t (charWrites (r.atlas l) color backgroundColor
        ((t.width : ℤ) * (Constants.RGBA_CHANNELS_CNT : ℤ)) r.charWidth
        (MinimapCharRenderer._getChIndex chCode * (r.charWidth : ℤ) * (r.charHeight : ℤ))
        (dy * ((t.width : ℤ) * (Constants.RGBA_CHANNELS_CNT : ℤ)) +
          dx * (Constants.RGBA_CHANNELS_CNT : ℤ))
        r.charHeight) := by
  simp only [MinimapCharRenderer.renderChar, if_neg h]

theorem applyWrites_idem (t : ImageData) (ws : List (ℤ × ℕ)) :
    applyWrites (applyWrites t ws) ws = applyWrites t ws := by
  apply ImageData.ext
  · rw [applyWrites_width]
  · rw [applyWrites_height]
  · funext j
    rw [applyWrites_data, applyWrites_byteLength, applyWrites_data]
    exact lastVal_idem _ _ _ _

theorem get?_eq_some_getD (l : List ℕ) (n : ℕ) (h : n < l.length) :
    l.get? n = some (l.getD n 0) := by
  cases hsome : l.get? n with
  | none => exact absurd (List.get?_eq_none.mp hsome) (by omega)
  | some v =>
    have hsome' : l[n]? = some v := by rw [← List.get?_eq_getElem?]; exact hsome
    simp [List.getD, hsome']

theorem soften_length (input : List ℕ) (num den : ℕ) :
    (MinimapCharRenderer.soften input num den).length = input.length := by
  unfold MinimapCharRenderer.soften
  exact List.length_map input _

theorem soften_getD_le (input : List ℕ) (num den : ℕ)
    (hle : ∀ v : ℕ, clampByteDiv ((v : ℤ) * num) den ≤ v) :
    ∀ i : ℕ, (MinimapCharRenderer.soften input num den).getD i 0 ≤ input.getD i 0 := by
  induction input with
  | nil => intro i; simp [MinimapCharRenderer.soften]
  | cons a as ih =>
    intro i
    cases i with
    | zero => simpa [MinimapCharRenderer.soften, List.getD_cons_zero] using hle a
    | succ n => simpa [MinimapCharRenderer.soften, List.getD_cons_succ] using ih n

/-! ### Claim theorems -/

/-- C1 (amended): every out-of-range color identifier (`colorId < 1` or
`colorId ≥ paletteLength`) is substituted by the reserved default-background
identifier, and `getColor` returns the palette entry at that index; whenever
the palette is longer than the default-background index (every successful
rebuild from a source map with at least three entries), `getColor` returns a
defined color for every identifier.  The original claim's universal
"never reads out of the palette's bounds" is false: after a rebuild from an
absent source map the single-entry palette is shorter than the
default-background index and `getColor` returns the undefined out-of-bounds
read (see the counterexample). -/
theorem getColor_default_background_substitution (st : TrackerState) (colorId : ℤ) :
    ((colorId < 1 ∨ (st.colors.length : ℤ) ≤ colorId) →
      st.getColor colorId = st.colors.get? ColorId.DefaultBackground) ∧
    (ColorId.DefaultBackground < st.colors.length →
      (st.getColor colorId).isSome) := by
  constructor
  · intro h
    simp only [TrackerState.getColor, if_pos h]
    rfl
  · intro h
    simp only [TrackerState.getColor]
    by_cases hin : colorId < 1 ∨ (st.colors.length : ℤ) ≤ colorId
    · rw [if_pos hin]
      simp only [Option.isSome_iff_ne_none, Ne, List.get?_eq_none]
      simp only [ColorId.DefaultBackground] at h ⊢
      omega
    · rw [if_neg hin]
      simp only [Option.isSome_iff_ne_none, Ne, List.get?_eq_none]
      simp only [ColorId.DefaultBackground] at h
      omega

/-- C1 witness: a three-entry palette and the out-of-range identifier 99. -/
theorem getColor_default_background_substitution_witness :
    ((99 : ℤ) < 1 ∨ ((samplePalette.colors.length : ℕ) : ℤ) ≤ 99) ∧
    samplePalette.getColor 99 = samplePalette.colors.get? ColorId.DefaultBackground ∧
    ColorId.DefaultBackground < samplePalette.colors.length ∧
    (samplePalette.getColor 99).isSome :=
  ⟨by decide,
    (getColor_default_background_substitution samplePalette 99).1 (by decide),
    by decide,
    (getColor_default_background_substitution samplePalette 99).2 (by decide)⟩

/-- C1 counterexample: after a rebuild from an absent color map the palette
is the single sentinel entry, and `getColor 0` returns `undefined` (`none`),
i.e. the out-of-bounds read at the default-background index — not a defined
color. -/
theorem getColor_undefined_after_absent_rebuild :
    (MinimapTokensColorTracker._updateColorMap none ⟨[], false⟩).state.colors.length = 1 ∧
    (MinimapTokensColorTracker._updateColorMap none ⟨[], false⟩).state.getColor 0 = none := by
  decide

/-- C2 (amended): a rebuild from an ABSENT (null) source map completes
without throwing, resets the palette to the single sentinel entry and the
lightness flag to `true`; but afterwards `getColor` returns `undefined`
(`none`) for EVERY identifier — not the sentinel — because the substituted
default-background index 2 is out of bounds of the single-entry palette.
And a rebuild from a PRESENT but empty source map does not complete: it
throws while reading the default-background entry of the empty map. -/
theorem updateColorMap_absent_resets (prev : TrackerState) :
    ((MinimapTokensColorTracker._updateColorMap none prev).crashed = false ∧
     (MinimapTokensColorTracker._updateColorMap none prev).state = ⟨[RGBA8.Empty], true⟩ ∧
     ∀ colorId : ℤ,
       (MinimapTokensColorTracker._updateColorMap none prev).state.getColor colorId = none) ∧
    (MinimapTokensColorTracker._updateColorMap (some []) prev).crashed = true := by
  refine ⟨⟨rfl, rfl, ?_⟩, rfl⟩
  intro colorId
  show TrackerState.getColor ⟨[RGBA8.Empty], true⟩ colorId = none
  simp only [TrackerState.getColor]
  rw [if_pos (by simp only [List.length_singleton]; omega)]
  rfl

/-- C2 counterexample: with an absent map, `getColor` afterwards does not
return the sentinel (it returns `undefined`); with a present-but-empty map,
the rebuild throws instead of completing. -/
theorem updateColorMap_empty_or_absent_cex :
    (MinimapTokensColorTracker._updateColorMap none ⟨[], false⟩).state.getColor 5 ≠
      some RGBA8.Empty ∧
    (MinimapTokensColorTracker._updateColorMap (some []) ⟨[], false⟩).crashed = true := by
  decide

/-- C3 (amended): a rebuild from a present source map with more entries than
the default-background index fires the change event exactly once, and the
state observed by subscribers at the fire is exactly the final state (both
the palette and the lightness flag already updated); the rebuild that resets
to the single-sentinel palette on an absent map fires ZERO events, not one. -/
theorem updateColorMap_fire_discipline (cm : List SourceColor) (prev : TrackerState)
    (h : ColorId.DefaultBackground < cm.length) :
    ((MinimapTokensColorTracker._updateColorMap (some cm) prev).fired =
        [(MinimapTokensColorTracker._updateColorMap (some cm) prev).state] ∧
      (MinimapTokensColorTracker._updateColorMap (some cm) prev).crashed = false) ∧
    (MinimapTokensColorTracker._updateColorMap none prev).fired = [] := by
  refine ⟨?_, rfl⟩
  obtain ⟨defBg, hd⟩ : ∃ d, cm.get? ColorId.DefaultBackground = some d :=
    ⟨cm.get ⟨ColorId.DefaultBackground, h⟩, List.get?_eq_get h⟩
  have hd' : cm[ColorId.DefaultBackground]? = some defBg := by
    rw [← List.get?_eq_getElem?]; exact hd
  simp [MinimapTokensColorTracker._updateColorMap, hd']

/-- C3 witness: the three-entry sample color map. -/
theorem updateColorMap_fire_discipline_witness :
    ColorId.DefaultBackground < sampleColorMap.length ∧
    (((MinimapTokensColorTracker._updateColorMap (some sampleColorMap) ⟨[], false⟩).fired =
        [(MinimapTokensColorTracker._updateColorMap (some sampleColorMap) ⟨[], false⟩).state] ∧
      (MinimapTokensColorTracker._updateColorMap (some sampleColorMap) ⟨[], false⟩).crashed =
        false) ∧
     (MinimapTokensColorTracker._updateColorMap none ⟨[], false⟩).fired = []) :=
  ⟨by decide, updateColorMap_fire_discipline sampleColorMap ⟨[], false⟩ (by decide)⟩

/-- C3 counterexample: the rebuild triggered by an absent color map fires no
event at all, contradicting "fires exactly once for every invocation of the
palette rebuild". -/
theorem updateColorMap_absent_fires_nothing_cex :
    (MinimapTokensColorTracker._updateColorMap none ⟨[], false⟩).fired = [] ∧
    (MinimapTokensColorTracker._updateColorMap none ⟨[], false⟩).fired.length ≠ 1 := by
  decide

/-- C4 (amended): for every character code `chCode ≥ -63` (equivalently
`chCode - START_CH_CODE ≥ -CHAR_COUNT`, which covers all of Unicode since
real character codes are non-negative), `_getChIndex` equals the
mathematical (non-negative) modulo `(chCode - 32) mod 95` and lands in
`[0, 94]`; in particular code 31 aliases with code 126 and code 127 with
code 32.  For codes below `-63` the single `+= CHAR_COUNT` correction is not
enough and the JS truncating `%` returns a NEGATIVE index, so the original
claim's "for arbitrarily large negative values" is false (see the
counterexample). -/
theorem getChIndex_wraps (chCode : ℤ) (h : -63 ≤ chCode) :
    (MinimapCharRenderer._getChIndex chCode =
        (chCode - Constants.START_CH_CODE) % Constants.CHAR_COUNT ∧
      0 ≤ MinimapCharRenderer._getChIndex chCode ∧
      MinimapCharRenderer._getChIndex chCode < Constants.CHAR_COUNT) ∧
    MinimapCharRenderer._getChIndex 31 = MinimapCharRenderer._getChIndex 126 ∧
    MinimapCharRenderer._getChIndex 127 = MinimapCharRenderer._getChIndex 32 := by
  refine ⟨?_, by decide, by decide⟩
  have hs := getChIndex_spec chCode h
  have h1 : Constants.START_CH_CODE = 32 := rfl
  have h2 : Constants.CHAR_COUNT = 95 := by decide
  rw [h1, h2]
  exact hs

/-- C4 witness: code 127 (one above the printable range). -/
theorem getChIndex_wraps_witness :
    (-63 : ℤ) ≤ 127 ∧
    ((MinimapCharRenderer._getChIndex 127 =
        ((127 : ℤ) - Constants.START_CH_CODE) % Constants.CHAR_COUNT ∧
      0 ≤ MinimapCharRenderer._getChIndex 127 ∧
      MinimapCharRenderer._getChIndex 127 < Constants.CHAR_COUNT) ∧
     MinimapCharRenderer._getChIndex 31 = MinimapCharRenderer._getChIndex 126 ∧
     MinimapCharRenderer._getChIndex 127 = MinimapCharRenderer._getChIndex 32) :=
  ⟨by decide, getChIndex_wraps 127 (by decide)⟩

/-- C4 counterexample: at `chCode = -64` the function returns `-1`, while the
mathematical modulo of `chCode - 32` is `94`; the result is not a valid
glyph index in `[0, 94]`. -/
theorem getChIndex_negative_code_cex :
    MinimapCharRenderer._getChIndex (-64) = -1 ∧
    ((-64 : ℤ) - Constants.START_CH_CODE) % Constants.CHAR_COUNT = 94 ∧
    MinimapCharRenderer._getChIndex (-64) ≠
      ((-64 : ℤ) - Constants.START_CH_CODE) % Constants.CHAR_COUNT ∧
    ¬ 0 ≤ MinimapCharRenderer._getChIndex (-64) := by
  decide

/-- C5: when the scaled footprint exceeds the target's width or height at
`(dx, dy)`, both `renderChar` and `blockRenderChar` return with the target
buffer (and the whole `ImageData`) byte-for-byte unchanged: the guard fires
before any store. -/
theorem render_bounds_reject_unchanged (r : MinimapCharRenderer) (t : ImageData)
    (dx dy chCode : ℤ) (color backgroundColor : RGBA8) (l : Bool)
    (h : dx + (r.charWidth : ℤ) > (t.width : ℤ) ∨
      dy + (r.charHeight : ℤ) > (t.height : ℤ)) :
    r.renderChar t dx dy chCode color backgroundColor l = t ∧
    r.blockRenderChar t dx dy color backgroundColor l = t := by
  constructor
  · simp only [MinimapCharRenderer.renderChar, if_pos h]
  · simp only [MinimapCharRenderer.blockRenderChar, if_pos h]

/-- C5 witness: a 4×2 target and a request at `dx = 4` (one column too far). -/
theorem render_bounds_reject_unchanged_witness :
    ((4 : ℤ) + (sampleRenderer.charWidth : ℤ) > (sampleTarget.width : ℤ) ∨
      (0 : ℤ) + (sampleRenderer.charHeight : ℤ) > (sampleTarget.height : ℤ)) ∧
    (sampleRenderer.renderChar sampleTarget 4 0 65 ⟨255, 255, 255, 255⟩ ⟨0, 0, 0, 0⟩ false =
        sampleTarget ∧
      sampleRenderer.blockRenderChar sampleTarget 4 0 ⟨255, 255, 255, 255⟩ ⟨0, 0, 0, 0⟩ false =
        sampleTarget) :=
  ⟨by decide,
    render_bounds_reject_unchanged sampleRenderer sampleTarget 4 0 65
      ⟨255, 255, 255, 255⟩ ⟨0, 0, 0, 0⟩ false (by decide)⟩

set_option maxRecDepth 100000

/-- C6: for a bounds-passing `renderChar` at non-negative device coordinates,
with a non-negative character code and an atlas covering the whole glyph
range (the construction precondition of the spec), the byte written at each
channel `c ∈ {R,G,B}` of each touched cell pixel `(x, y)` is exactly
`background + (color - background) * (sample/255)` of the atlas sample
consumed for that pixel (row-major from offset `index·cellW·cellH`), the
alpha byte of EVERY pixel of the target is left untouched, and the blend
endpoints are exact: sample 0 gives the background channel, sample 255 the
foreground channel. -/
theorem renderChar_blends_channels (r : MinimapCharRenderer) (t : ImageData)
    (dx dy chCode : ℤ) (color backgroundColor : RGBA8) (l : Bool)
    (hdx : 0 ≤ dx) (hdy : 0 ≤ dy)
    (hb : ¬(dx + (r.charWidth : ℤ) > (t.width : ℤ) ∨
        dy + (r.charHeight : ℤ) > (t.height : ℤ)))
    (hch : 0 ≤ chCode)
    (hlen : 95 * (r.charWidth * r.charHeight) ≤ (r.atlas l).length) :
    (∀ x y c : ℕ, x < r.charWidth → y < r.charHeight → c < 3 →
      (r.renderChar t dx dy chCode color backgroundColor l).data
          (((dy.toNat + y) * t.width + (dx.toNat + x)) * 4 + c) =
        blendChannel (chan c backgroundColor) (chan c color)
          ((r.atlas l).getD
            ((MinimapCharRenderer._getChIndex chCode).toNat *
                (r.charWidth * r.charHeight) + (y * r.charWidth + x)) 0)) ∧
    (∀ ty tx : ℕ, ty < t.height → tx < t.width →
      (r.renderChar t dx dy chCode color backgroundColor l).data
          ((ty * t.width + tx) * 4 + 3) =
        t.data ((ty * t.width + tx) * 4 + 3)) ∧
    (∀ bgv fgv : ℕ, bgv ≤ 255 → fgv ≤ 255 →
      blendChannel bgv fgv 0 = bgv ∧ blendChannel bgv fgv 255 = fgv) := by
  obtain ⟨dxn, rfl⟩ := Int.eq_ofNat_of_zero_le hdx
  obtain ⟨dyn, rfl⟩ := Int.eq_ofNat_of_zero_le hdy
  have hb1 : dxn + r.charWidth ≤ t.width := by omega
  have hb2 : dyn + r.charHeight ≤ t.height := by omega
  obtain ⟨hzero, hlt95⟩ := getChIndex_range chCode hch
  obtain ⟨ci, hci⟩ := Int.eq_ofNat_of_zero_le hzero
  have hci95 : ci < 95 := by omega
  refine ⟨?_, ?_, fun bgv fgv hbv hfv =>
    ⟨blendChannel_zero bgv fgv hbv, blendChannel_full bgv fgv hfv⟩⟩
  · intro x y c hx hy hc
    rw [Int.toNat_natCast, Int.toNat_natCast,
      renderChar_data_in r t dxn dyn chCode color backgroundColor l hb1 hb2 x y c hx hy hc,
      hci, Int.toNat_natCast]
    have hEN : ci * (r.charWidth * r.charHeight) + (y * r.charWidth + x) <
        (r.atlas l).length := by
      have h1 : y * r.charWidth + x < r.charWidth * r.charHeight := by
        calc y * r.charWidth + x < y * r.charWidth + r.charWidth := by omega
        _ = (y + 1) * r.charWidth := by ring
        _ ≤ r.charHeight * r.charWidth := Nat.mul_le_mul_right _ (by omega)
        _ = r.charWidth * r.charHeight := Nat.mul_comm _ _
      have h2 : ci * (r.charWidth * r.charHeight) ≤ 94 * (r.charWidth * r.charHeight) :=
        Nat.mul_le_mul_right _ (by omega)
      omega
    have hE : ((ci : ℤ) * (r.charWidth : ℤ) * (r.charHeight : ℤ) +
        ((y : ℤ) * (r.charWidth : ℤ) + (x : ℤ))) =
        ((ci * (r.charWidth * r.charHeight) + (y * r.charWidth + x) : ℕ) : ℤ) := by
      push_cast; ring
    have hread : atlasRead (r.atlas l)
        ((ci * (r.charWidth * r.charHeight) + (y * r.charWidth + x) : ℕ) : ℤ) =
        some ((r.atlas l).getD
          (ci * (r.charWidth * r.charHeight) + (y * r.charWidth + x)) 0) := by
      unfold atlasRead
      rw [if_pos ⟨by positivity, by exact_mod_cast hEN⟩, Int.toNat_natCast]
      exact get?_eq_some_getD _ _ hEN
    rw [hE, hread]
    rfl
  · intro ty tx hty htx
    exact renderChar_data_out r t dxn (dyn : ℤ) chCode color backgroundColor l
      ty tx 3 htx (by omega) (by omega)

/-- C6 witness: scale-1 renderer over a full 190-sample atlas, rendering
code 32 at the origin of a 4×2 target; pixel (0,0), channel R. -/
theorem renderChar_blends_channels_witness :
    ((0 : ℤ) ≤ 0 ∧ (0 : ℤ) ≤ 32 ∧
      ¬((0 : ℤ) + (bigRenderer.charWidth : ℤ) > (sampleTarget.width : ℤ) ∨
        (0 : ℤ) + (bigRenderer.charHeight : ℤ) > (sampleTarget.height : ℤ)) ∧
      95 * (bigRenderer.charWidth * bigRenderer.charHeight) ≤
        (bigRenderer.atlas false).length) ∧
    (bigRenderer.renderChar sampleTarget 0 0 32 ⟨255, 255, 255, 255⟩ ⟨0, 0, 0, 0⟩
        false).data
        ((((0 : ℤ).toNat + 0) * sampleTarget.width + ((0 : ℤ).toNat + 0)) * 4 + 0) =
      blendChannel (chan 0 ⟨0, 0, 0, 0⟩) (chan 0 ⟨255, 255, 255, 255⟩)
        ((bigRenderer.atlas false).getD
          ((MinimapCharRenderer._getChIndex 32).toNat *
              (bigRenderer.charWidth * bigRenderer.charHeight) +
            (0 * bigRenderer.charWidth + 0)) 0) :=
  ⟨⟨by decide, by decide, by decide, by decide⟩,
    (renderChar_blends_channels bigRenderer sampleTarget 0 0 32 ⟨255, 255, 255, 255⟩
        ⟨0, 0, 0, 0⟩ false (by decide) (by decide) (by decide) (by decide) (by decide)).1
      0 0 0 (by decide) (by decide) (by decide)⟩

/-- C7: for a bounds-passing `blockRenderChar` at non-negative device
coordinates, every channel byte of every pixel of the scaled cell footprint
receives the same RGB triple — the 50% midpoint blend
`background + (color - background) * 1/2`, channel-wise — and the output is
identical for `useLighterFont = true` and `false`. -/
theorem blockRenderChar_uniform_midpoint (r : MinimapCharRenderer) (t : ImageData)
    (dx dy : ℤ) (color backgroundColor : RGBA8) (l : Bool)
    (hdx : 0 ≤ dx) (hdy : 0 ≤ dy)
    (hb : ¬(dx + (r.charWidth : ℤ) > (t.width : ℤ) ∨
        dy + (r.charHeight : ℤ) > (t.height : ℤ))) :
    (∀ x y c : ℕ, x < r.charWidth → y < r.charHeight → c < 3 →
      (r.blockRenderChar t dx dy color backgroundColor l).data
          (((dy.toNat + y) * t.width + (dx.toNat + x)) * 4 + c) =
        chan c ⟨blockBlend backgroundColor.r color.r,
          blockBlend backgroundColor.g color.g,
          blockBlend backgroundColor.b color.b, 0⟩) ∧
    r.blockRenderChar t dx dy color backgroundColor true =
      r.blockRenderChar t dx dy color backgroundColor false := by
  obtain ⟨dxn, rfl⟩ := Int.eq_ofNat_of_zero_le hdx
  obtain ⟨dyn, rfl⟩ := Int.eq_ofNat_of_zero_le hdy
  have hb1 : dxn + r.charWidth ≤ t.width := by omega
  have hb2 : dyn + r.charHeight ≤ t.height := by omega
  refine ⟨?_, rfl⟩
  intro x y c hx hy hc
  rw [Int.toNat_natCast, Int.toNat_natCast]
  exact blockRenderChar_data_in r t dxn dyn color backgroundColor l hb1 hb2 x y c hx hy hc

/-- C7 witness: scale-1 renderer, white on black at `(1, 0)` of a 4×2
target; pixel (0,0), channel R: the midpoint is 128 (127.5 ties to even). -/
theorem blockRenderChar_uniform_midpoint_witness :
    ((0 : ℤ) ≤ 1 ∧ (0 : ℤ) ≤ 0 ∧
      ¬((1 : ℤ) + (sampleRenderer.charWidth : ℤ) > (sampleTarget.width : ℤ) ∨
        (0 : ℤ) + (sampleRenderer.charHeight : ℤ) > (sampleTarget.height : ℤ))) ∧
    (sampleRenderer.blockRenderChar sampleTarget 1 0 ⟨255, 255, 255, 255⟩ ⟨0, 0, 0, 0⟩
        false).data
        ((((0 : ℤ).toNat + 0) * sampleTarget.width + ((1 : ℤ).toNat + 0)) * 4 + 0) =
      chan 0 ⟨blockBlend 0 255, blockBlend 0 255, blockBlend 0 255, 0⟩ :=
  ⟨⟨by decide, by decide, by decide⟩,
    (blockRenderChar_uniform_midpoint sampleRenderer sampleTarget 1 0
        ⟨255, 255, 255, 255⟩ ⟨0, 0, 0, 0⟩ false (by decide) (by decide) (by decide)).1
      0 0 0 (by decide) (by decide) (by decide)⟩

/-- C8: both derived atlases of the constructor (normal weight, ratio 12/15,
and lighter weight, ratio 50/60) are pointwise no larger than the source
atlas, byte for byte, the clamped round-half-to-even store included; the
derived atlases also have the source's length. -/
theorem soften_non_increasing (charData : List ℕ) (scale : ℕ) (i : ℕ) :
    (MinimapCharRenderer.make charData scale).charDataNormal.getD i 0 ≤
      charData.getD i 0 ∧
    (MinimapCharRenderer.make charData scale).charDataLight.getD i 0 ≤
      charData.getD i 0 ∧
    (MinimapCharRenderer.make charData scale).charDataNormal.length = charData.length ∧
    (MinimapCharRenderer.make charData scale).charDataLight.length = charData.length :=
  ⟨soften_getD_le charData 12 15 (fun v => clampByteDiv_soften_normal_le v) i,
    soften_getD_le charData 50 60 (fun v => clampByteDiv_soften_light_le v) i,
    soften_length charData 12 15, soften_length charData 50 60⟩

/-- C9: `renderChar` is idempotent — a second call with identical arguments
(on the buffer produced by the first) reproduces exactly the first call's
result, because the bounds check depends only on the (unchanged) target
dimensions and every stored byte is computed from the arguments and the
immutable atlas alone, never from the buffer contents. -/
theorem renderChar_idempotent (r : MinimapCharRenderer) (t : ImageData)
    (dx dy chCode : ℤ) (color backgroundColor : RGBA8) (l : Bool) :
    r.renderChar (r.renderChar t dx dy chCode color backgroundColor l) dx dy chCode
        color backgroundColor l =
      r.renderChar t dx dy chCode color backgroundColor l := by
  by_cases hguard : dx + (r.charWidth : ℤ) > (t.width : ℤ) ∨
      dy + (r.charHeight : ℤ) > (t.height : ℤ)
  · have h1 : r.renderChar t dx dy chCode color backgroundColor l = t := by
      simp only [MinimapCharRenderer.renderChar, if_pos hguard]
    rw [h1]
    exact h1
  · have hW := renderChar_width r t dx dy chCode color backgroundColor l
    have hH := renderChar_height r t dx dy chCode color backgroundColor l
    have hguard2 : ¬(dx + (r.charWidth : ℤ) >
        ((r.renderChar t dx dy chCode color backgroundColor l).width : ℤ) ∨
        dy + (r.charHeight : ℤ) >
        ((r.renderChar t dx dy chCode color backgroundColor l).height : ℤ)) := by
      rw [hW, hH]; exact hguard
    rw [renderChar_eq_applyWrites r _ dx dy chCode color backgroundColor l hguard2, hW,
      renderChar_eq_applyWrites r t dx dy chCode color backgroundColor l hguard]
    exact applyWrites_idem _ _

/-- C10 (amended): for a bounds-passing call of `renderChar` or
`blockRenderChar` with `dx ≥ 0` (and any `dy` the check accepts, negative
included), every byte of the target buffer outside the scaled cell footprint
at `(dx, dy)` — and every alpha byte inside it — is left unchanged.  The
original claim also admitted negative `dx`, but then the row-major index
arithmetic wraps a store into the previous row's rightmost pixels, modifying
a byte outside the footprint (see the counterexample). -/
theorem render_frame_outside_footprint (r : MinimapCharRenderer) (t : ImageData)
    (dx dy chCode : ℤ) (color backgroundColor : RGBA8) (l : Bool)
    (hdx : 0 ≤ dx)
    (_hb : ¬(dx + (r.charWidth : ℤ) > (t.width : ℤ) ∨
        dy + (r.charHeight : ℤ) > (t.height : ℤ))) :
    ∀ ty tx c : ℕ, ty < t.height → tx < t.width → c < 4 →
      ¬(dy ≤ (ty : ℤ) ∧ (ty : ℤ) < dy + (r.charHeight : ℤ) ∧
          dx ≤ (tx : ℤ) ∧ (tx : ℤ) < dx + (r.charWidth : ℤ) ∧ c < 3) →
      (r.renderChar t dx dy chCode color backgroundColor l).data
          ((ty * t.width + tx) * 4 + c) = t.data ((ty * t.width + tx) * 4 + c) ∧
      (r.blockRenderChar t dx dy color backgroundColor l).data
          ((ty * t.width + tx) * 4 + c) = t.data ((ty * t.width + tx) * 4 + c) := by
  obtain ⟨dxn, rfl⟩ := Int.eq_ofNat_of_zero_le hdx
  intro ty tx c _hty htx hc hout
  exact ⟨renderChar_data_out r t dxn dy chCode color backgroundColor l ty tx c htx hc hout,
    blockRenderChar_data_out r t dxn dy color backgroundColor l ty tx c htx hc hout⟩

/-- C10 witness: rendering at `(1, 0)` on a 4×2 target; pixel `(3, 0)`
(outside the one-pixel-wide footprint) keeps its byte in both paths. -/
theorem render_frame_outside_footprint_witness :
    ((0 : ℤ) ≤ 1 ∧
      ¬((1 : ℤ) + (sampleRenderer.charWidth : ℤ) > (sampleTarget.width : ℤ) ∨
        (0 : ℤ) + (sampleRenderer.charHeight : ℤ) > (sampleTarget.height : ℤ)) ∧
      0 < sampleTarget.height ∧ 3 < sampleTarget.width ∧
      ¬((0 : ℤ) ≤ ((0 : ℕ) : ℤ) ∧ ((0 : ℕ) : ℤ) < 0 + (sampleRenderer.charHeight : ℤ) ∧
          (1 : ℤ) ≤ ((3 : ℕ) : ℤ) ∧ ((3 : ℕ) : ℤ) < 1 + (sampleRenderer.charWidth : ℤ) ∧
          (0 : ℕ) < 3)) ∧
    ((sampleRenderer.renderChar sampleTarget 1 0 32 ⟨255, 255, 255, 255⟩ ⟨0, 0, 0, 0⟩
          false).data ((0 * sampleTarget.width + 3) * 4 + 0) =
        sampleTarget.data ((0 * sampleTarget.width + 3) * 4 + 0) ∧
      (sampleRenderer.blockRenderChar sampleTarget 1 0 ⟨255, 255, 255, 255⟩ ⟨0, 0, 0, 0⟩
          false).data ((0 * sampleTarget.width + 3) * 4 + 0) =
        sampleTarget.data ((0 * sampleTarget.width + 3) * 4 + 0)) :=
  ⟨⟨by decide, by decide, by decide, by decide, by decide⟩,
    render_frame_outside_footprint sampleRenderer sampleTarget 1 0 32
      ⟨255, 255, 255, 255⟩ ⟨0, 0, 0, 0⟩ false (by decide) (by decide) 0 3 0
      (by decide) (by decide) (by decide) (by decide)⟩

/-- C10 counterexample: at `dx = -1`, `dy = 0` the bounds check passes on a
4×2 target (scale 1), pixel `(3, 0)` lies outside the footprint (its column
rectangle is `{-1}`), yet the render call changes that pixel's R byte: the
second row's leftmost store wraps to linear index 12, the end of row 0. -/
theorem render_frame_negative_dx_cex :
    ¬((-1 : ℤ) + (sampleRenderer.charWidth : ℤ) > (sampleTarget.width : ℤ) ∨
      (0 : ℤ) + (sampleRenderer.charHeight : ℤ) > (sampleTarget.height : ℤ)) ∧
    ¬((-1 : ℤ) ≤ (3 : ℤ) ∧ (3 : ℤ) < (-1 : ℤ) + (sampleRenderer.charWidth : ℤ)) ∧
    (sampleRenderer.renderChar sampleTarget (-1) 0 32 ⟨255, 255, 255, 255⟩ ⟨0, 0, 0, 0⟩
        false).data ((0 * sampleTarget.width + 3) * 4 + 0) ≠
      sampleTarget.data ((0 * sampleTarget.width + 3) * 4 + 0) := by
  decide

end Minimap
